import Mathlib

/-!
Verification of the custom logic in the Pandas-Tutorial-SciPyConf-2018
notebooks: the consecutive away-game streak counter of
`05-Tidy-Data.ipynb`, the streaming review-parsing pipeline and the
`demean` transform of `03-Iterators-Groupby.ipynb`.

Sequences of tags are modelled as `List String` (a pandas Series of the
`home_away` column restricted to one team); a Series with its index is
modelled as a list of (index, value) pairs.  A text stream is a list of
lines, each line a `String` that, as in Python file iteration, still
carries its trailing newline; the blank separator line is the string
consisting of a single newline.  Exact rationals `ℚ` stand in for the
numeric values handled by `demean`.
-/

/-! ## Definitions -/

/-- Modelled from the spec: the loop body of `compute_away_streaks` in
`05-Tidy-Data.ipynb` is an exercise skeleton whose two fill-ins (`...`) are
loaded from a solutions file absent from the repository.  The skeleton fixes
the loop structure (one appended entry per row, the running `current_streak`
carried across iterations, the comparison `row == 'away_team'` with a bare
`else` branch holding a plain assignment).  Per the spec's contract (§4.1)
and the notebook's own example table, the away branch increments the running
streak and the other branch resets it to zero; the value appended is the
updated streak. -/
def compute_away_streaks_go (current_streak : Nat) : List String → List Nat
  | [] => []
  | row :: rest =>
    let s := if row = "away_team" then current_streak + 1 else 0
    s :: compute_away_streaks_go s rest

/-- The streak values of `compute_away_streaks`, starting from streak 0. -/
def compute_away_streaks (v : List String) : List Nat :=
  compute_away_streaks_go 0 v

/-- `streaks = pd.Series(streaks, index=v.index)`: the returned Series pairs
the input's index labels with the computed streak values. -/
def compute_away_streaks_series (v : List (Nat × String)) : List (Nat × Nat) :=
  (v.map Prod.fst).zip (compute_away_streaks (v.map Prod.snd))

/-- `v.mean()` over exact rationals: sum divided by length (with the
convention 0/0 = 0 of `ℚ` for the empty sequence). -/
def mean (v : List ℚ) : ℚ := v.sum / v.length

/-- `def demean(v): return v - v.mean()`: subtract the mean from every
entry (pandas broadcasts the scalar over the sequence). -/
def demean (v : List ℚ) : List ℚ := v.map (fun x => x - mean v)

/-- `x.startswith('\x00')` for the one-character argument used in the
notebook: the line's first character is the null character. -/
def startswith_nul (x : String) : Bool := x.data.head? == some '\x00'

/-- Worker for `partitionby`: `cur` accumulates (reversed) the current block
of consecutive elements whose key equals `curKey`; a key change emits the
block and starts a new one. -/
def partitionby_go (f : String → Bool) (curKey : Bool) (cur : List String) :
    List String → List (List String)
  | [] => [cur.reverse]
  | x :: xs =>
    if f x == curKey then partitionby_go f curKey (x :: cur) xs
    else cur.reverse :: partitionby_go f (f x) [x] xs

/-- `toolz.partitionby(f, seq)`: split a sequence into maximal blocks of
consecutive elements on which `f` is constant. -/
def partitionby (f : String → Bool) : List String → List (List String)
  | [] => []
  | x :: xs => partitionby_go f (f x) [x] xs

/-- Split a character list at the first occurrence of the separator ": ",
returning the parts left and right of it (`line.split(': ', 1)` when the
separator occurs). -/
def splitColonSpace : List Char → Option (List Char × List Char)
  | [] => none
  | [_] => none
  | c :: d :: cs =>
    if c = ':' ∧ d = ' ' then some ([], cs)
    else match splitColonSpace (d :: cs) with
      | some kv => some (c :: kv.1, kv.2)
      | none => none

/-- Modelled from the spec: the body of `format_review` in
`03-Iterators-Groupby.ipynb` is loaded from
`solutions/groupby_format_review.py`, absent from the repository.  Per the
spec's line format (`key: value` records) and the notebook's narration of
the solution (a per-line split at ": " with at most one split), each line is
stripped of its trailing newline and split at the first ": "; the key is the
text left of the colon, the value the text right of it.  A line without the
separator is kept whole as a key with an empty value. -/
def formatLine (l : List Char) : List Char × List Char :=
  let stripped := if l.getLast? = some '\n' then l.dropLast else l
  match splitColonSpace stripped with
  | some kv => kv
  | none => (stripped, [])

/-- Modelled from the spec: `format_review` maps each line of one record to
a (key, value) dictionary entry (see `formatLine`). -/
def format_review (review : List String) : List (String × String) :=
  review.map (fun s =>
    (String.mk (formatLine s.data).1, String.mk (formatLine s.data).2))

/-- The `review_lines` pipeline of `03-Iterators-Groupby.ipynb` (the cell
reading `data/beer-raw-small.txt.gz`): drop lines starting with a null
character, partition the stream of lines by the blank-line predicate,
discard the blank-line groups, and turn each remaining record into a
dictionary with `format_review`. -/
def review_pipeline (lines : List String) : List (List (String × String)) :=
  let lines2 := lines.filter (fun x => !(startswith_nul x))
  let review_lines_and_newlines := partitionby (fun x => x == "\n") lines2
  let review_lines := review_lines_and_newlines.filter (fun x => !(x == ["\n"]))
  review_lines.map format_review

/-! ## Streak counter: helper lemmas -/

theorem compute_away_streaks_go_length (v : List String) (c : Nat) :
    (compute_away_streaks_go c v).length = v.length := by
  induction v generalizing c with
  | nil => rfl
  | cons row rest ih => simp [compute_away_streaks_go, ih]

theorem compute_away_streaks_go_reset (v : List String) (c p : Nat) (s : String)
    (hp : v[p]? = some s) (hs : s ≠ "away_team") :
    (compute_away_streaks_go c v)[p]? = some 0 := by
  induction v generalizing c p with
  | nil => simp at hp
  | cons row rest ih =>
    cases p with
    | zero =>
      simp only [List.getElem?_cons_zero, Option.some.injEq] at hp
      subst hp
      simp [compute_away_streaks_go, if_neg hs]
    | succ q =>
      simp only [List.getElem?_cons_succ] at hp
      simpa [compute_away_streaks_go] using ih _ q hp

theorem compute_away_streaks_go_run (v : List String) (c j : Nat)
    (h : ∀ t, t ≤ j → v[t]? = some "away_team") :
    (compute_away_streaks_go c v)[j]? = some (c + j + 1) := by
  induction v generalizing c j with
  | nil => simpa using h 0 (Nat.zero_le j)
  | cons row rest ih =>
    have h0 : row = "away_team" := by
      have := h 0 (Nat.zero_le j)
      simpa using this
    cases j with
    | zero => simp [compute_away_streaks_go, h0]
    | succ q =>
      have hrest : ∀ t, t ≤ q → rest[t]? = some "away_team" := by
        intro t ht
        have := h (t + 1) (Nat.succ_le_succ ht)
        simpa using this
      have := ih (c + 1) q hrest
      simp only [compute_away_streaks_go, h0, if_pos, List.getElem?_cons_succ]
      rw [this]
      congr 1
      omega

theorem compute_away_streaks_go_drop (v : List String) (c i : Nat) (s : String)
    (hi : v[i]? = some s) (hs : s ≠ "away_team") :
    (compute_away_streaks_go c v).drop (i + 1) =
      compute_away_streaks_go 0 (v.drop (i + 1)) := by
  induction v generalizing c i with
  | nil => simp at hi
  | cons row rest ih =>
    cases i with
    | zero =>
      simp only [List.getElem?_cons_zero, Option.some.injEq] at hi
      subst hi
      simp [compute_away_streaks_go, if_neg hs]
    | succ q =>
      simp only [List.getElem?_cons_succ] at hi
      simpa [compute_away_streaks_go] using ih _ q hi

theorem compute_away_streaks_go_all_home (v : List String) (c : Nat)
    (h : ∀ x ∈ v, x ≠ "away_team") :
    compute_away_streaks_go c v = List.replicate v.length 0 := by
  induction v generalizing c with
  | nil => rfl
  | cons row rest ih =>
    have h0 : row ≠ "away_team" := h row (List.mem_cons_self row rest)
    simp [compute_away_streaks_go, if_neg h0, List.replicate_succ,
      ih _ (fun x hx => h x (List.mem_cons_of_mem row hx))]

theorem compute_away_streaks_go_sanitize (v : List String) (c : Nat) :
    compute_away_streaks_go c v =
      compute_away_streaks_go c
        (v.map fun x => if x = "away_team" then x else "home_team") := by
  induction v generalizing c with
  | nil => rfl
  | cons row rest ih =>
    by_cases h : row = "away_team"
    · simp only [List.map_cons, if_pos h, compute_away_streaks_go]
      rw [← ih]
    · simp only [List.map_cons, if_neg h, compute_away_streaks_go]
      rw [if_neg (by decide : ¬ ("home_team" : String) = "away_team"), ← ih]

/-! ## Streak counter: claims -/

/-- Claim C1: for every maximal run of "away" tags of length `k` starting at
position `i`, the streak counter outputs the values `1..k` in order at
positions `i..i+k-1`. -/
theorem away_streak_run_values (v : List String) (i k : Nat)
    (hk : 0 < k) (hik : i + k ≤ v.length)
    (hrun : ∀ j, j < k → v[i + j]? = some "away_team")
    (hleft : 0 < i → ¬ v[i - 1]? = some "away_team")
    (hright : ¬ v[i + k]? = some "away_team") :
    ∀ j, j < k → (compute_away_streaks v)[i + j]? = some (j + 1) := by
  intro j hj
  cases i with
  | zero =>
    have h : ∀ t, t ≤ j → v[t]? = some "away_team" := by
      intro t ht
      simpa using hrun t (lt_of_le_of_lt ht hj)
    simpa using compute_away_streaks_go_run v 0 j h
  | succ m =>
    have hm : m < v.length := by omega
    have hsome : v[m]? = some (v.get ⟨m, hm⟩) := by
      simp [List.getElem?_eq_getElem hm]
    have hs : v.get ⟨m, hm⟩ ≠ "away_team" := by
      intro hcontra
      have haway : v[m]? = some "away_team" := by rw [hsome, hcontra]
      exact hleft (Nat.succ_pos m) (by simpa using haway)
    have hdrop := compute_away_streaks_go_drop v 0 m _ hsome hs
    have hidx : (compute_away_streaks v)[m + 1 + j]? =
        ((compute_away_streaks_go 0 v).drop (m + 1))[j]? := by
      rw [List.getElem?_drop]
      rfl
    rw [hidx, hdrop]
    have hrest : ∀ t, t ≤ j → (v.drop (m + 1))[t]? = some "away_team" := by
      intro t ht
      rw [List.getElem?_drop]
      exact hrun t (lt_of_le_of_lt ht hj)
    simpa using compute_away_streaks_go_run (v.drop (m + 1)) 0 j hrest

/-- Witness for C1 on the input [home, away, away]: the run of length 2
starting at position 1 yields output 2 at position 2. -/
theorem away_streak_run_values_witness :
    (compute_away_streaks ["home_team", "away_team", "away_team"])[1 + 1]? = some (1 + 1) :=
  away_streak_run_values ["home_team", "away_team", "away_team"] 1 2
    (by decide) (by decide)
    (by intro j hj; interval_cases j <;> decide)
    (by decide) (by decide) 1 (by decide)

/-- Claim C2 counterexample: on the input containing the unrecognized tag
"banana", `compute_away_streaks` does not fail with an InvalidArgument
condition; it returns normally with the value [0], exactly as it does for a
"home_team" input. -/
theorem away_streak_malformed_counterexample :
    compute_away_streaks ["banana"] = [0] ∧
    compute_away_streaks ["banana"] = compute_away_streaks ["home_team"] := by
  constructor <;> decide

/-- Claim C2 (amended): `compute_away_streaks` performs no input validation
and has no failure path at all: it returns normally on every input, and any
tag other than "away_team" (including tags outside the two recognized
values) is processed exactly like "home_team", resetting the streak. -/
theorem away_streak_no_failure (v : List String) :
    compute_away_streaks v =
      compute_away_streaks
        (v.map fun x => if x = "away_team" then x else "home_team") :=
  compute_away_streaks_go_sanitize v 0

/-- Claim C3: the output of `compute_away_streaks` has the same length as
the input sequence. -/
theorem away_streak_length (v : List String) :
    (compute_away_streaks v).length = v.length :=
  compute_away_streaks_go_length v 0

/-- Claim C4: the output of `compute_away_streaks` is 0 at every position
whose tag is "home_team". -/
theorem away_streak_home_zero (v : List String) (p : Nat)
    (hp : v[p]? = some "home_team") :
    (compute_away_streaks v)[p]? = some 0 :=
  compute_away_streaks_go_reset v 0 p "home_team" hp (by decide)

/-- Witness for C4: on [away, home], position 1 is "home_team" and the
output there is 0. -/
theorem away_streak_home_zero_witness :
    (compute_away_streaks ["away_team", "home_team"])[1]? = some 0 :=
  away_streak_home_zero ["away_team", "home_team"] 1 (by decide)

/-- Claim C5: on the input [away, away, home, away, away, away] the streak
counter returns [1, 2, 0, 1, 2, 3]. -/
theorem away_streak_example :
    compute_away_streaks
      ["away_team", "away_team", "home_team", "away_team", "away_team", "away_team"] =
      [1, 2, 0, 1, 2, 3] := by
  decide

/-- Claim C6: the empty input yields the empty output, [home, home] yields
[0, 0], and every all-home input yields all zeros (so leading "home"
entries reset the streak to zero immediately). -/
theorem away_streak_edge_cases :
    compute_away_streaks [] = [] ∧
    compute_away_streaks ["home_team", "home_team"] = [0, 0] ∧
    ∀ v : List String, (∀ x ∈ v, x = "home_team") →
      compute_away_streaks v = List.replicate v.length 0 := by
  refine ⟨rfl, by decide, ?_⟩
  intro v hv
  exact compute_away_streaks_go_all_home v 0
    (fun x hx => by rw [hv x hx]; decide)

/-- Witness for C6 at the concrete all-home input [home, home]. -/
theorem away_streak_edge_cases_witness :
    (∀ x ∈ ["home_team", "home_team"], x = "home_team") ∧
    compute_away_streaks ["home_team", "home_team"] = List.replicate 2 0 :=
  ⟨by decide, by
    simpa using away_streak_edge_cases.2.2 ["home_team", "home_team"] (by decide)⟩

/-- Claim C7: `compute_away_streaks` is pure and deterministic: its output
values depend only on the sequence of tag values (not on the index labels
or any other state), so two runs on equal tag sequences yield equal
outputs. -/
theorem away_streak_pure (v w : List (Nat × String))
    (h : v.map Prod.snd = w.map Prod.snd) :
    (compute_away_streaks_series v).map Prod.snd =
      (compute_away_streaks_series w).map Prod.snd := by
  unfold compute_away_streaks_series
  rw [List.map_snd_zip _ _ (by simp [compute_away_streaks, compute_away_streaks_go_length]),
    List.map_snd_zip _ _ (by simp [compute_away_streaks, compute_away_streaks_go_length]), h]

/-- Witness for C7: two series over the same tags but different index
labels have equal output values. -/
theorem away_streak_pure_witness :
    ([(5, "away_team")] : List (Nat × String)).map Prod.snd =
      ([(99, "away_team")] : List (Nat × String)).map Prod.snd ∧
    (compute_away_streaks_series [(5, "away_team")]).map Prod.snd =
      (compute_away_streaks_series [(99, "away_team")]).map Prod.snd :=
  ⟨by decide, away_streak_pure [(5, "away_team")] [(99, "away_team")] (by decide)⟩

/-- Claim C9: for every non-empty input, the Series returned by
`compute_away_streaks` carries exactly the input's index labels, in order. -/
theorem away_streak_series_index (v : List (Nat × String)) (h : v ≠ []) :
    (compute_away_streaks_series v).map Prod.fst = v.map Prod.fst := by
  unfold compute_away_streaks_series
  exact List.map_fst_zip _ _
    (by simp [compute_away_streaks, compute_away_streaks_go_length])

/-- Witness for C9 at the concrete input [(7, away)]. -/
theorem away_streak_series_index_witness :
    (compute_away_streaks_series [(7, "away_team")]).map Prod.fst =
      [(7, "away_team")].map Prod.fst :=
  away_streak_series_index [(7, "away_team")] (by decide)

/-! ## demean: helper lemmas and claim -/

theorem sum_map_sub_const (v : List ℚ) (m : ℚ) :
    (v.map (fun x => x - m)).sum = v.sum - v.length * m := by
  induction v with
  | nil => simp
  | cons x xs ih =>
    simp only [List.map_cons, List.sum_cons, ih, List.length_cons]
    push_cast
    ring

theorem zipWith_sub_replicate (v : List ℚ) (m : ℚ) :
    List.zipWith (fun a b => a - b) v (List.replicate v.length m) =
      v.map (fun x => x - m) := by
  induction v with
  | nil => rfl
  | cons x xs ih => simp [List.replicate_succ, ih]

theorem mean_demean_eq_zero (v : List ℚ) : mean (demean v) = 0 := by
  rcases eq_or_ne ((v.length : ℚ)) 0 with h | h
  · simp [mean, demean, sum_map_sub_const, h]
  · simp only [mean, demean, sum_map_sub_const, List.length_map]
    field_simp

theorem demean_idem (v : List ℚ) : demean (demean v) = demean v := by
  conv_lhs => rw [demean]
  simp [mean_demean_eq_zero, sub_zero]

/-- Claim C10: over exact rationals, `demean v` is the elementwise
subtraction of the constant mean vector from `v`, the mean of `demean v`
is 0, and `demean` is idempotent. -/
theorem demean_spec (v : List ℚ) :
    demean v = List.zipWith (fun a b => a - b) v (List.replicate v.length (mean v)) ∧
    mean (demean v) = 0 ∧
    demean (demean v) = demean v :=
  ⟨(zipWith_sub_replicate v (mean v)).symm, mean_demean_eq_zero v, demean_idem v⟩

/-! ## Review pipeline: helper lemmas and claim -/

theorem partitionby_go_append_same (f : String → Bool) (curKey : Bool)
    (t cur rest : List String) (ht : ∀ l ∈ t, f l = curKey) :
    partitionby_go f curKey cur (t ++ rest) =
      partitionby_go f curKey (t.reverse ++ cur) rest := by
  induction t generalizing cur with
  | nil => simp
  | cons x t ih =>
    have hx : f x = curKey := ht x (List.mem_cons_self x t)
    simp only [List.cons_append, partitionby_go, hx, beq_self_eq_true, if_pos,
      List.append_eq]
    rw [ih (x :: cur) (fun l hl => ht l (List.mem_cons_of_mem x hl))]
    congr 1
    simp

theorem partitionby_go_switch (f : String → Bool) (curKey : Bool) (cur : List String)
    (y : String) (ys : List String) (hy : f y ≠ curKey) :
    partitionby_go f curKey cur (y :: ys) =
      cur.reverse :: partitionby_go f (f y) [y] ys := by
  simp [partitionby_go, hy]

theorem partitionby_go_all_same (f : String → Bool) (curKey : Bool)
    (t cur : List String) (ht : ∀ l ∈ t, f l = curKey) :
    partitionby_go f curKey cur t = [cur.reverse ++ t] := by
  have h := partitionby_go_append_same f curKey t cur [] ht
  rw [List.append_nil] at h
  rw [h]
  simp [partitionby_go]

theorem intercalate_cons_cons (a b : List String) (l : List (List String)) :
    List.intercalate ["\n"] (a :: b :: l) =
      a ++ "\n" :: List.intercalate ["\n"] (b :: l) := by
  simp [List.intercalate, List.intersperse]

theorem intercalate_head_cons (y : String) (t : List String) (l : List (List String)) :
    ∃ tail, List.intercalate ["\n"] ((y :: t) :: l) = y :: tail := by
  cases l with
  | nil => exact ⟨t, by simp [List.intercalate]⟩
  | cons c l =>
    exact ⟨t ++ "\n" :: List.intercalate ["\n"] (c :: l),
      by rw [intercalate_cons_cons]; rfl⟩

theorem mem_intercalate_blank (rs : List (List String)) (x : String)
    (hx : x ∈ List.intercalate ["\n"] rs) : x = "\n" ∨ ∃ r ∈ rs, x ∈ r := by
  induction rs with
  | nil => simp [List.intercalate] at hx
  | cons r rs ih =>
    cases rs with
    | nil =>
      simp [List.intercalate] at hx
      exact Or.inr ⟨r, by simp, hx⟩
    | cons b l =>
      rw [intercalate_cons_cons] at hx
      rcases List.mem_append.mp hx with h | h
      · exact Or.inr ⟨r, by simp, h⟩
      · rcases List.mem_cons.mp h with h | h
        · exact Or.inl h
        · rcases ih h with h | ⟨r2, hr2, hxr2⟩
          · exact Or.inl h
          · exact Or.inr ⟨r2, by simp [hr2], hxr2⟩

theorem partitionby_intercalate (rs : List (List String))
    (hne : ∀ r ∈ rs, r ≠ [])
    (hl : ∀ r ∈ rs, ∀ l ∈ r, l ≠ "\n") :
    (partitionby (fun x => x == "\n") (List.intercalate ["\n"] rs)).filter
      (fun x => !(x == ["\n"])) = rs := by
  induction rs with
  | nil => simp [List.intercalate, partitionby]
  | cons r rs ih =>
    obtain ⟨x, t, rfl⟩ : ∃ x t, r = x :: t := by
      cases r with
      | nil => exact absurd rfl (hne [] (by simp))
      | cons x t => exact ⟨x, t, rfl⟩
    have hx : ¬ (x = "\n") := (hl (x :: t) (by simp) x (by simp))
    have hxf : ((x == "\n") : Bool) = false := by simp [hx]
    have ht : ∀ l ∈ t, ((l == "\n") : Bool) = false := by
      intro l hlmem
      simp [hl (x :: t) (by simp) l (by simp [hlmem])]
    cases rs with
    | nil =>
      rw [show List.intercalate ["\n"] [x :: t] = x :: t by simp [List.intercalate]]
      have hu : partitionby (fun x => x == "\n") (x :: t) =
          partitionby_go (fun x => x == "\n") false [x] t := by
        simp [partitionby, hxf]
      rw [hu, partitionby_go_all_same _ _ t [x] ht]
      simp [List.filter_cons, hx]
    | cons b l =>
      rw [intercalate_cons_cons]
      obtain ⟨y, t2, rfl⟩ : ∃ y t2, b = y :: t2 := by
        cases b with
        | nil => exact absurd rfl (hne [] (by simp))
        | cons y t2 => exact ⟨y, t2, rfl⟩
      have hy : ¬ (y = "\n") := hl (y :: t2) (by simp) y (by simp)
      have hyf : ((y == "\n") : Bool) = false := by simp [hy]
      obtain ⟨tail, htail⟩ := intercalate_head_cons y t2 l
      have hu : partitionby (fun x => x == "\n")
          ((x :: t) ++ "\n" :: List.intercalate ["\n"] ((y :: t2) :: l)) =
          partitionby_go (fun x => x == "\n") false [x]
            (t ++ "\n" :: List.intercalate ["\n"] ((y :: t2) :: l)) := by
        simp [partitionby, hxf]
      rw [hu, partitionby_go_append_same _ _ t [x] _ ht,
        partitionby_go_switch _ _ _ _ _ (by simp),
        htail, partitionby_go_switch _ _ _ _ _ (by simp [hyf])]
      have hfold : partitionby_go (fun x => x == "\n") ((y == "\n")) [y] tail =
          partitionby (fun x => x == "\n") (List.intercalate ["\n"] ((y :: t2) :: l)) := by
        rw [htail]
        simp [partitionby]
      rw [hfold]
      have hih := ih (fun r hr => hne r (List.mem_cons_of_mem _ hr))
        (fun r hr => hl r (List.mem_cons_of_mem _ hr))
      simp [List.filter_cons, hx, hih]

theorem splitColonSpace_cons_ne (c : Char) (l : List Char) (hc : c ≠ ':')
    (hl : l ≠ []) :
    splitColonSpace (c :: l) =
      match splitColonSpace l with
      | some kv => some (c :: kv.1, kv.2)
      | none => none := by
  cases l with
  | nil => exact absurd rfl hl
  | cons d cs => simp [splitColonSpace, hc]

theorem splitColonSpace_append (k w : List Char) (hk : ':' ∉ k) :
    splitColonSpace (k ++ ':' :: ' ' :: w) = some (k, w) := by
  induction k with
  | nil => simp [splitColonSpace]
  | cons c k ih =>
    have hc : c ≠ ':' := fun h => hk (by simp [h])
    have hk2 : ':' ∉ k := fun h => hk (List.mem_cons_of_mem c h)
    rw [List.cons_append, splitColonSpace_cons_ne c _ hc (by simp), ih hk2]

theorem formatLine_key_value (k w : List Char) (hk : ':' ∉ k) :
    formatLine ((k ++ ':' :: ' ' :: w) ++ ['\n']) = (k, w) := by
  simp only [formatLine, List.getLast?_concat, List.dropLast_concat,
    Option.some.injEq, if_pos, splitColonSpace_append k w hk]

theorem format_review_line (key w : String) (hk : ':' ∉ key.data) :
    format_review [key ++ ": " ++ w ++ "\n"] = [(key, w)] := by
  have h1 : ((": " : String)).data = [':', ' '] := rfl
  have h2 : (("\n" : String)).data = ['\n'] := rfl
  have hdata : (key ++ ": " ++ w ++ "\n").data =
      (key.data ++ ':' :: ' ' :: w.data) ++ ['\n'] := by
    simp [String.data_append, h1, h2]
  simp only [format_review, List.map_cons, List.map_nil, hdata,
    formatLine_key_value key.data w.data hk]

theorem filter_nul_intercalate (rs : List (List String))
    (hl : ∀ r ∈ rs, ∀ l ∈ r, startswith_nul l = false) :
    (List.intercalate ["\n"] rs).filter (fun x => !(startswith_nul x)) =
      List.intercalate ["\n"] rs := by
  apply List.filter_eq_self.mpr
  intro a ha
  rcases mem_intercalate_blank rs a ha with h | ⟨r, hr, har⟩
  · subst h; decide
  · simp [hl r hr a har]

/-- Claim C8: for every stream of blank-line-separated records whose lines
are neither blank nor null-prefixed, the pipeline recovers exactly one
record per block (no blank separator line appears in any record), and
`format_review` turns each record into a dictionary with one entry per
line, the key being the text left of the colon and the value the text
right of it. -/
theorem review_pipeline_spec (rs : List (List String))
    (hne : ∀ r ∈ rs, r ≠ [])
    (hl : ∀ r ∈ rs, ∀ l ∈ r, l ≠ "\n" ∧ startswith_nul l = false) :
    review_pipeline (List.intercalate ["\n"] rs) = rs.map format_review ∧
    (∀ r ∈ rs, (format_review r).length = r.length) ∧
    (∀ key w : String, ':' ∉ key.data →
      format_review [key ++ ": " ++ w ++ "\n"] = [(key, w)]) := by
  refine ⟨?_, ?_, ?_⟩
  · simp only [review_pipeline]
    rw [filter_nul_intercalate rs (fun r hr l hlm => (hl r hr l hlm).2),
      partitionby_intercalate rs hne (fun r hr l hlm => (hl r hr l hlm).1)]
  · intro r _
    simp [format_review]
  · exact format_review_line

/-- Witness for C8 at a concrete two-record stream drawn from the
notebook's test data. -/
theorem review_pipeline_spec_witness :
    review_pipeline (List.intercalate ["\n"]
      [["beer/name: Sausa Weizen\n"], ["review/overall: 1.5\n"]]) =
      [["beer/name: Sausa Weizen\n"], ["review/overall: 1.5\n"]].map format_review :=
  (review_pipeline_spec [["beer/name: Sausa Weizen\n"], ["review/overall: 1.5\n"]]
    (by decide) (by decide)).1
